import Mathlib

/-!
Verification development for the card-image recognition pipeline in
backend/app/services/ocr.py.  Text is modelled as List Char, images and
perspective matrices as opaque handles (Nat), floating point geometry as
exact rationals, and the external OCR engine (pytesseract) as a function
parameter returning Option (List Char) (none models a per-call exception).
Python int truncation on nonnegative values is Nat division.
-/

namespace MtgOcr

/-- Code point of a character, as a Nat, used for all character tests. -/
def cv (c : Char) : Nat := c.toNat

/-- ASCII letter test: the model of Python str.isalpha restricted to the
post-filter alphabet (after the regex filter only ASCII letters remain). -/
def isAsciiLetter (c : Char) : Bool :=
  decide ((65 ≤ cv c ∧ cv c ≤ 90) ∨ (97 ≤ cv c ∧ cv c ≤ 122))

/-- ASCII uppercase letter test, the model of str.isupper on cleaned text. -/
def isUpperLetter (c : Char) : Bool :=
  decide (65 ≤ cv c ∧ cv c ≤ 90)

/-- Whitespace as matched by the Python regex class backslash-s on str
(and str.strip with no argument): ASCII whitespace, 0x1c-0x1f, NEL, NBSP,
and the Unicode space separators. -/
def isPySpace (c : Char) : Bool :=
  decide (cv c = 32 ∨ (9 ≤ cv c ∧ cv c ≤ 13) ∨ (28 ≤ cv c ∧ cv c ≤ 31) ∨
    cv c = 133 ∨ cv c = 160 ∨ cv c = 5760 ∨ (8192 ≤ cv c ∧ cv c ≤ 8202) ∨
    cv c = 8232 ∨ cv c = 8233 ∨ cv c = 8239 ∨ cv c = 8287 ∨ cv c = 12288)

/-- The 28 characters of the strip call in clean_ocr_result:
period comma semicolon colon bang question brackets braces parens quote
apostrophe hyphen underscore equals plus angle brackets star at hash dollar
percent caret ampersand slash. -/
def isPunctStrip (c : Char) : Bool :=
  decide (cv c = 46 ∨ cv c = 44 ∨ cv c = 59 ∨ cv c = 58 ∨ cv c = 33 ∨
    cv c = 63 ∨ cv c = 91 ∨ cv c = 93 ∨ cv c = 123 ∨ cv c = 125 ∨
    cv c = 40 ∨ cv c = 41 ∨ cv c = 34 ∨ cv c = 39 ∨ cv c = 45 ∨
    cv c = 95 ∨ cv c = 61 ∨ cv c = 43 ∨ cv c = 60 ∨ cv c = 62 ∨
    cv c = 42 ∨ cv c = 64 ∨ cv c = 35 ∨ cv c = 36 ∨ cv c = 37 ∨
    cv c = 94 ∨ cv c = 38 ∨ cv c = 47)

/-- Characters kept by the regex sub removing everything outside
letters, whitespace, hyphen, apostrophe, comma. -/
def isAllowedKeep (c : Char) : Bool :=
  isAsciiLetter c || isPySpace c ||
    decide (cv c = 45 ∨ cv c = 39 ∨ cv c = 44)

/-- Characters that can appear in a cleaned candidate: ASCII letters,
space, hyphen, apostrophe, comma. -/
def outAllowed (c : Char) : Bool :=
  isAsciiLetter c || decide (cv c = 32 ∨ cv c = 45 ∨ cv c = 39 ∨ cv c = 44)

/-- The OCR confusion remap: bar and digit one to lowercase L, digit zero
to uppercase O, em dash and en dash to hyphen.  The five sequential
str.replace calls commute into one character map because no replacement
output is a later replacement target. -/
def remapChar (c : Char) : Char :=
  if cv c = 124 then 'l'
  else if cv c = 49 then 'l'
  else if cv c = 48 then 'O'
  else if cv c = 8212 then '-'
  else if cv c = 8211 then '-'
  else c

/-- First line of the text: model of text.split at newline, index zero. -/
def firstLine (l : List Char) : List Char :=
  l.takeWhile (fun c => decide (cv c ≠ 10))

/-- Drop trailing characters satisfying p: the right half of str.strip. -/
def rdropP (p : Char → Bool) : List Char → List Char
  | [] => []
  | c :: rest =>
    match rdropP p rest with
    | [] => if p c then [] else [c]
    | d :: ds => c :: d :: ds

/-- Model of Python str.strip with a character class: drop the leading and
trailing characters satisfying p. -/
def stripP (p : Char → Bool) (l : List Char) : List Char :=
  rdropP p (l.dropWhile p)

/-- Model of the regex sub collapsing every whitespace run to one space. -/
def collapseSpaces : List Char → List Char
  | [] => []
  | [c] => if isPySpace c then [' '] else [c]
  | c1 :: c2 :: rest =>
    if isPySpace c1 && isPySpace c2 then collapseSpaces (c2 :: rest)
    else (if isPySpace c1 then ' ' else c1) :: collapseSpaces (c2 :: rest)

/-- Number of alphabetic characters, the model of
sum of 1 for c in text if c.isalpha applied to cleaned text. -/
def alphaCount (l : List Char) : Nat := l.countP (fun c => isAsciiLetter c)

/-- The cleaning pipeline without the final letter-count guard: first
line, whitespace strip, confusion remap, edge-punctuation strip,
character filter, whitespace collapse and final strip. -/
def cleanCore (raw : List Char) : List Char :=
  stripP isPySpace (collapseSpaces
    ((stripP isPunctStrip ((stripP isPySpace (firstLine raw)).map
      remapChar)).filter isAllowedKeep))

/-- clean_ocr_result (ocr.py lines 202-228): take the first line, strip
whitespace, apply the confusion remap, strip edge punctuation, drop all
characters outside the allowed class, collapse whitespace runs and strip
again, and discard the result unless it keeps at least 3 letters. -/
def clean_ocr_result (raw : List Char) : Option (List Char) :=
  if raw.isEmpty then none
  else
    let t1 := stripP isPySpace (firstLine raw)
    let t2 := t1.map remapChar
    let t3 := stripP isPunctStrip t2
    let t4 := t3.filter isAllowedKeep
    let t5 := stripP isPySpace (collapseSpaces t4)
    if alphaCount t5 < 3 then none else some t5

/-- The score of a surviving cleaned candidate inside run_ocr: letter
count, plus two per uppercase letter, plus five when the length is
between 5 and 40. -/
def scoreCand (t : List Char) : Nat :=
  t.countP (fun c => isAsciiLetter c) +
    2 * t.countP (fun c => isUpperLetter c) +
    (if 5 ≤ t.length ∧ t.length ≤ 40 then 5 else 0)

/-- The four tesseract configurations of run_ocr, by index in declared
order: psm7 oem3, psm6 oem3, psm13 oem3, psm7 oem1. -/
def configsList : List Nat := [0, 1, 2, 3]

/-- The list of (cleaned text, score) pairs accumulated by run_ocr.  The
recognizer is a parameter; none models a raised and caught per-call
exception, and an empty or unusable raw text is discarded by cleaning. -/
def ocrResults (recognize : Nat → Option (List Char)) :
    List (List Char × Nat) :=
  configsList.filterMap fun cfg =>
    ((recognize cfg).bind clean_ocr_result).map fun t => (t, scoreCand t)

/-- One insertion step of a stable descending sort keyed by f: the new
element goes after the existing elements with a strictly greater key and
before those with an equal or smaller key. -/
def insertDescBy (f : α → Nat) (x : α) : List α → List α
  | [] => [x]
  | y :: rest => if f y > f x then y :: insertDescBy f x rest else x :: y :: rest

/-- Stable descending sort keyed by f: the model of list.sort with a key
and reverse set, which is stable in Python. -/
def sortDescBy (f : α → Nat) (l : List α) : List α :=
  l.foldr (insertDescBy f) []

/-- run_ocr (ocr.py lines 231-263): clean and score the raw text of each
configuration, sort the survivors by score descending (stable) and return
the text of the head, or none when no configuration survives. -/
def run_ocr (recognize : Nat → Option (List Char)) : Option (List Char) :=
  match sortDescBy (fun p => p.2) (ocrResults recognize) with
  | [] => none
  | r :: _ => some r.1

/-- The maximum of f over a list, zero on the empty list. -/
def listMaxN (f : α → Nat) (l : List α) : Nat :=
  l.foldr (fun x m => max (f x) m) 0

/-- The first element of the list attaining the maximal key: the
declarative selector used in the theorem statements. -/
def firstMaxD (f : α → Nat) (l : List α) : Option α :=
  l.find? fun x => decide (listMaxN f l ≤ f x)

/-- The running-best fold of the outer selection loops: replace the best
seen so far only on a strictly greater key. -/
def bestFold (f : α → Nat) (l : List α) (acc : Option α × Nat) :
    Option α × Nat :=
  l.foldl (fun a x => if f x > a.2 then (some x, f x) else a) acc

/-- The surviving candidates of a list of per-variant results. -/
def candList (l : List (Option (List Char))) : List (List Char) :=
  l.filterMap id

/- ---------------------------------------------------------------- -/
/- Geometry: points, order_points, the rectifier and the localizer.  -/
/- ---------------------------------------------------------------- -/

/-- A 2D point with exact rational coordinates (floats are modelled as
exact rationals). -/
structure Pt where
  x : ℚ
  y : ℚ
deriving DecidableEq

/-- Quadruple of points: the rows of a (4,2) numpy array. -/
abbrev Quad4 := Pt × Pt × Pt × Pt

/-- Default point for list indexing (indices are proved in range). -/
def pt0 : Pt := ⟨0, 0⟩

/-- The four rows of the point array, in order. -/
def ptsList (q : Quad4) : List Pt := [q.1, q.2.1, q.2.2.1, q.2.2.2]

/-- The row sum x plus y used for the top-left and bottom-right corners. -/
def sumXY (p : Pt) : ℚ := p.x + p.y

/-- The row difference produced by numpy diff along axis one: y minus x. -/
def diffYX (p : Pt) : ℚ := p.y - p.x

/-- Explicit pairwise minimum on rationals, as Python min computes it. -/
def ratMin (a b : ℚ) : ℚ := if a ≤ b then a else b

/-- Explicit pairwise maximum on rationals, as Python max computes it. -/
def ratMax (a b : ℚ) : ℚ := if a ≤ b then b else a

/-- The minimum of f over a nonempty list, none on the empty list. -/
def minVal? (f : Pt → ℚ) : List Pt → Option ℚ
  | [] => none
  | p :: rest =>
    some (match minVal? f rest with
      | none => f p
      | some m => ratMin (f p) m)

/-- Index of the first occurrence of the minimum of f, the documented
semantics of numpy argmin (ties resolve to the first occurrence). -/
def firstIdxMinBy (f : Pt → ℚ) : List Pt → Nat
  | [] => 0
  | p :: rest =>
    match minVal? f rest with
    | none => 0
    | some m => if f p ≤ m then 0 else firstIdxMinBy f rest + 1

/-- Index of the first occurrence of the maximum of f, the documented
semantics of numpy argmax, via the first minimum of the negated key. -/
def firstIdxMaxBy (f : Pt → ℚ) (l : List Pt) : Nat :=
  firstIdxMinBy (fun p => -(f p)) l

/-- order_points (ocr.py lines 103-115): rect row 0 is the point at
argmin of the sums, row 2 at argmax of the sums, row 1 at argmin of the
diffs (y minus x), row 3 at argmax of the diffs. -/
def order_points (q : Quad4) : Quad4 :=
  let l := ptsList q
  (l.getD (firstIdxMinBy sumXY l) pt0,
   l.getD (firstIdxMinBy diffYX l) pt0,
   l.getD (firstIdxMaxBy sumXY l) pt0,
   l.getD (firstIdxMaxBy diffYX l) pt0)

/-- Opaque handle for an in-memory image. -/
abbrev Img := Nat

/-- Opaque handle for a perspective-transform matrix. -/
abbrev Mtx := Nat

/-- Target canonical card width in pixels. -/
def cardWidth : ℚ := 488

/-- Target canonical card height in pixels. -/
def cardHeight : ℚ := 680

/-- The destination corners of the canonical card rectangle, in the order
top-left, top-right, bottom-right, bottom-left. -/
def dstQuad : Quad4 :=
  (⟨0, 0⟩, ⟨cardWidth - 1, 0⟩, ⟨cardWidth - 1, cardHeight - 1⟩,
   ⟨0, cardHeight - 1⟩)

/-- extract_card_perspective (ocr.py lines 118-140): order the points,
compute the transform onto the canonical rectangle and warp.  The
transform computation is the opaque parameter solve; its returning none
models the caught exception path, in which the function returns none. -/
def extract_card_perspective (solve : Quad4 → Quad4 → Option Mtx)
    (warp : Mtx → Img → Img) (img : Img) (q : Quad4) : Option Img :=
  match solve (order_points q) dstQuad with
  | some m => some (warp m img)
  | none => none

/-- A candidate contour as seen by find_card_in_image after the opaque
cv2 stages: the vertex count of its polygon approximation, the side
lengths of its minimum-area rectangle, and its polygon points. -/
structure Contour where
  nv : Nat
  w : ℚ
  h : ℚ
  pts : Quad4
deriving DecidableEq

/-- Short side over long side of the minimum-area rectangle. -/
def aspectRatio (c : Contour) : ℚ := ratMin c.w c.h / ratMax c.w c.h

/-- The geometric acceptance test of find_card_in_image: exactly 4
vertices, nondegenerate rectangle, aspect ratio strictly between
0.6 and 0.8. -/
def geomOk (c : Contour) : Bool :=
  decide (c.nv = 4) && decide (¬ c.w = 0) && decide (¬ c.h = 0) &&
    decide ((6 : ℚ) / 10 < aspectRatio c) &&
    decide (aspectRatio c < (8 : ℚ) / 10)

/-- Scale a quadruple of points back to the original resolution. -/
def scaleQuad (sf : ℚ) (q : Quad4) : Quad4 :=
  (⟨sf * q.1.x, sf * q.1.y⟩, ⟨sf * q.2.1.x, sf * q.2.1.y⟩,
   ⟨sf * q.2.2.1.x, sf * q.2.2.1.y⟩, ⟨sf * q.2.2.2.x, sf * q.2.2.2.y⟩)

/-- Processing of one contour inside the localizer loop: apply the
geometric test, then attempt the perspective extraction on the scaled
points; none means the loop continues with the next contour. -/
def stepContour (solve : Quad4 → Quad4 → Option Mtx)
    (warp : Mtx → Img → Img) (img : Img) (sf : ℚ) (c : Contour) :
    Option Img :=
  if geomOk c then extract_card_perspective solve warp img (scaleQuad sf c.pts)
  else none

/-- find_card_in_image (ocr.py lines 45-100): for each edge-detection
preset in order, take the five largest contours (the per-preset lists
are given already sorted by area, descending, as cv2 returns after the
sort) and return the first successfully extracted card; otherwise try
the next preset; none after all presets. -/
def find_card_in_image (solve : Quad4 → Quad4 → Option Mtx)
    (warp : Mtx → Img → Img) (img : Img) (sf : ℚ) :
    List (List Contour) → Option Img
  | [] => none
  | cs :: rest =>
    match (cs.take 5).findSome? (stepContour solve warp img sf) with
    | some card => some card
    | none => find_card_in_image solve warp img sf rest

/- ---------------------------------------------------------------- -/
/- The single-card pipeline: extract_card_name_from_image.           -/
/- ---------------------------------------------------------------- -/

/-- The opaque data of one single-card pipeline invocation: module-level
tesseract availability, whether cv2.imread decoded the file, the opaque
contour-detection output per preset, the transform solver and warper,
the scale factor, whether the title crop of a given image has zero size,
and the raw recognizer output per image, preprocessing variant and
configuration. -/
structure OcrEnv where
  available : Bool
  imageLoads : Bool
  solve : Quad4 → Quad4 → Option Mtx
  warp : Mtx → Img → Img
  fullImg : Img
  sf : ℚ
  presets : List (List Contour)
  titleEmpty : Img → Bool
  recogOn : Img → Nat → Nat → Option (List Char)

/-- The strategy images tried in order: the extracted card when the
localizer succeeded, then always the full image. -/
def imagesToTry (env : OcrEnv) : List Img :=
  (match find_card_in_image env.solve env.warp env.fullImg env.sf
      env.presets with
   | some card => [card]
   | none => []) ++ [env.fullImg]

/-- The flattened sequence of per-(strategy, variant) run_ocr results in
the order the loops of extract_card_name_from_image produce them; a
strategy whose title crop is empty contributes nothing. -/
def pipelineItems (env : OcrEnv) : List (Option (List Char)) :=
  (imagesToTry env).flatMap fun im =>
    if env.titleEmpty im then []
    else (List.range 5).map fun v => run_ocr (env.recogOn im v)

/-- The selection loop of extract_card_name_from_image: keep the best
result by letter count, replacing only on a strictly greater count, and
return immediately after any result whose letter count reaches 12. -/
def nameLoop : List (Option (List Char)) → Option (List Char) → Nat →
    Option (List Char)
  | [], best, _ => best
  | none :: rest, best, bs => nameLoop rest best bs
  | some t :: rest, best, bs =>
    let s := alphaCount t
    let best2 := if s > bs then some t else best
    let bs2 := if s > bs then s else bs
    if 12 ≤ s then best2 else nameLoop rest best2 bs2

/-- extract_card_name_from_image (ocr.py lines 266-330): fail when
tesseract is unavailable or the image does not decode, otherwise run the
selection loop over the strategy and variant results. -/
def extract_card_name_from_image (env : OcrEnv) : Option (List Char) :=
  if env.available = false then none
  else if env.imageLoads = false then none
  else nameLoop (pipelineItems env) none 0

/-- Truncation of the result sequence at the early exit: everything up
to and including the first result whose letter count reaches 12. -/
def upToGood : List (Option (List Char)) → List (Option (List Char))
  | [] => []
  | none :: rest => none :: upToGood rest
  | some t :: rest =>
    if 12 ≤ alphaCount t then [some t] else some t :: upToGood rest

/- ---------------------------------------------------------------- -/
/- Title region and binder page.                                     -/
/- ---------------------------------------------------------------- -/

/-- extract_title_region (ocr.py lines 143-156): the crop bounds
(y start, y end, x start, x end) at fixed fractions of the card height
and width; float products truncated by int are exact Nat divisions. -/
def extract_title_region (h w : Nat) : Nat × Nat × Nat × Nat :=
  (h * 45 / 1000, h * 115 / 1000, w * 6 / 100, w * 82 / 100)

/-- Pixel count of the title crop, with numpy slice clamping: zero when
either slice is empty. -/
def titleRegionSize (h w : Nat) : Nat :=
  (min (h * 115 / 1000) h - h * 45 / 1000) *
    (min (w * 82 / 100) w - w * 6 / 100)

/-- Cell bounds (x start, y start, x end, y end) of the binder grid,
with the fixed inward padding of 15 pixels. -/
def cellBounds (h w r c : Nat) : Nat × Nat × Nat × Nat :=
  (c * (w / 3) + 15, r * (h / 3) + 15,
   (c + 1) * (w / 3) - 15, (r + 1) * (h / 3) - 15)

/-- detect_binder_grid (ocr.py lines 333-351): the nine cell bounds in
row-major order. -/
def detect_binder_grid (h w : Nat) : List (Nat × Nat × Nat × Nat) :=
  (List.range 3).flatMap fun r =>
    (List.range 3).map fun c => cellBounds h w r c

/-- is_empty_slot (ocr.py lines 354-365): true for a missing or
zero-size cell (modelled by none), otherwise true exactly when the
grayscale variance is below 500. -/
def is_empty_slot : Option ℚ → Bool
  | none => true
  | some v => decide (v < 500)

/-- The opaque data of one binder-page invocation: availability and
decode flags, and per slot the grayscale variance of the cell (none for
a degenerate cell), the localizer result on the cell, the cell image,
plus the title-crop emptiness and recognizer keyed by image. -/
structure BinderEnv where
  available : Bool
  imageLoads : Bool
  slotVariance : Nat → Option ℚ
  slotCard : Nat → Option Img
  slotCell : Nat → Img
  titleEmpty : Img → Bool
  recogOn : Img → Nat → Nat → Option (List Char)

/-- Per-slot processing of extract_cards_from_binder_page: skip empty
slots, use the localized card else the raw cell, skip when the title
crop is empty, then keep the best run_ocr result by letter count over
the first three preprocessing variants only. -/
def binderSlotResult (env : BinderEnv) (i : Nat) : Option (List Char) :=
  if is_empty_slot (env.slotVariance i) then none
  else
    let imgU := (env.slotCard i).getD (env.slotCell i)
    if env.titleEmpty imgU then none
    else
      (bestFold alphaCount
        (candList ((List.range 3).map fun v => run_ocr (env.recogOn imgU v)))
        (none, 0)).1

/-- extract_cards_from_binder_page (ocr.py lines 368-417): nine none
results when tesseract is unavailable or the image does not decode,
otherwise the nine slot results in order. -/
def extract_cards_from_binder_page (env : BinderEnv) :
    List (Option (List Char)) :=
  if env.available = false then List.replicate 9 none
  else if env.imageLoads = false then List.replicate 9 none
  else (List.range 9).map fun i => binderSlotResult env i

/- ---------------------------------------------------------------- -/
/- Auxiliary predicates used in theorem statements.                  -/
/- ---------------------------------------------------------------- -/

/-- No two adjacent whitespace characters. -/
def noTwoSpaces : List Char → Bool
  | c1 :: c2 :: rest => (!(isPySpace c1 && isPySpace c2)) && noTwoSpaces (c2 :: rest)
  | _ => true

/-- Position i holds the first occurrence of the minimum of f. -/
def isFirstMinAt (f : Pt → ℚ) (l : List Pt) (i : Nat) : Prop :=
  i < l.length ∧ (∀ j, j < l.length → f (l.getD i pt0) ≤ f (l.getD j pt0)) ∧
    (∀ j, j < i → f (l.getD i pt0) < f (l.getD j pt0))

/-- Position i holds the first occurrence of the maximum of f. -/
def isFirstMaxAt (f : Pt → ℚ) (l : List Pt) (i : Nat) : Prop :=
  i < l.length ∧ (∀ j, j < l.length → f (l.getD j pt0) ≤ f (l.getD i pt0)) ∧
    (∀ j, j < i → f (l.getD j pt0) < f (l.getD i pt0))

/- ---------------------------------------------------------------- -/
/- Definitions modelled from the words of the spec, for comparison   -/
/- with the code (refinement checks of corrected claims).            -/
/- ---------------------------------------------------------------- -/

/-- Modelled from the spec: orderQuadrilateralPoints as the spec words
it, with top-right at the minimum of x minus y and bottom-left at its
maximum, failing (none, standing for DegenerateGeometryError) when fewer
than 4 distinct points are supplied. -/
def orderQuadrilateralPointsSpec (q : Quad4) : Option Quad4 :=
  if (ptsList q).Nodup then
    let l := ptsList q
    some (l.getD (firstIdxMinBy sumXY l) pt0,
      l.getD (firstIdxMinBy (fun p => p.x - p.y) l) pt0,
      l.getD (firstIdxMaxBy sumXY l) pt0,
      l.getD (firstIdxMaxBy (fun p => p.x - p.y) l) pt0)
  else none

/-- Modelled from the spec: the perspective rectifier as the spec words
it, falling back to an unwarped resize of the original image when the
transform is singular, never failing. -/
def extractCardPerspectiveSpec (solve : Quad4 → Quad4 → Option Mtx)
    (warp : Mtx → Img → Img) (resize : Img → Img) (img : Img) (q : Quad4) :
    Option Img :=
  match solve (order_points q) dstQuad with
  | some m => some (warp m img)
  | none => some (resize img)

/-- The cleaned candidates of every (strategy, variant, configuration)
triple, in the declared production order. -/
def specCandidatesAll (env : OcrEnv) : List (List Char) :=
  (imagesToTry env).flatMap fun im =>
    if env.titleEmpty im then []
    else (List.range 5).flatMap fun v =>
      configsList.filterMap fun cfg => (env.recogOn im v cfg).bind clean_ocr_result

/-- Modelled from the spec: the selector as claim C1 words it, choosing
the candidate of maximal full-formula score across all pairs, ties to
the earliest produced. -/
def specSelectAll (env : OcrEnv) : Option (List Char) :=
  firstMaxD scoreCand (specCandidatesAll env)

/-- Modelled from the spec: the binder slot pipeline as claim C7 words
it, consulting all five preprocessed variants of the slot image. -/
def binderSlotAllVariants (env : BinderEnv) (i : Nat) : Option (List Char) :=
  if is_empty_slot (env.slotVariance i) then none
  else
    let imgU := (env.slotCard i).getD (env.slotCell i)
    if env.titleEmpty imgU then none
    else
      (bestFold alphaCount
        (candList ((List.range 5).map fun v => run_ocr (env.recogOn imgU v)))
        (none, 0)).1

/-- The per-slot selection of the binder loop written declaratively:
the earliest candidate of maximal letter count among the first three
variants. -/
def binderSlotChar (env : BinderEnv) (i : Nat) : Option (List Char) :=
  if is_empty_slot (env.slotVariance i) then none
  else
    let imgU := (env.slotCard i).getD (env.slotCell i)
    if env.titleEmpty imgU then none
    else
      firstMaxD alphaCount
        (candList ((List.range 3).map fun v => run_ocr (env.recogOn imgU v)))

/- ---------------------------------------------------------------- -/
/- Concrete instances used by counterexamples and witnesses.         -/
/- ---------------------------------------------------------------- -/

/-- An axis-aligned square given in the order top-left, top-right,
bottom-right, bottom-left. -/
def ptsSquare : Quad4 := (⟨0, 0⟩, ⟨10, 0⟩, ⟨10, 10⟩, ⟨0, 10⟩)

/-- A degenerate quadruple with only three distinct points. -/
def ptsDup : Quad4 := (⟨0, 0⟩, ⟨0, 0⟩, ⟨10, 0⟩, ⟨10, 10⟩)

/-- The characters of the card name Lightning Bolt, a fixed point of
cleaning. -/
def nameLB : List Char :=
  ['L', 'i', 'g', 'h', 't', 'n', 'i', 'n', 'g', ' ', 'B', 'o', 'l', 't']

/-- A pipeline run in which variant 0 reads a four-letter lowercase
candidate and variant 1 a three-letter uppercase one. -/
def cexEnvC1 : OcrEnv where
  available := true
  imageLoads := true
  solve := fun _ _ => none
  warp := fun _ i => i
  fullImg := 0
  sf := 1
  presets := []
  titleEmpty := fun _ => false
  recogOn := fun im v cfg =>
    if im = 0 ∧ v = 0 ∧ cfg = 0 then some ['a', 'b', 'c', 'd']
    else if im = 0 ∧ v = 1 ∧ cfg = 0 then some ['A', 'B', 'C']
    else none

/-- A binder page whose slot 0 is a live cell that only variant 3 of the
preprocessor can read. -/
def cexEnvC7 : BinderEnv where
  available := true
  imageLoads := true
  slotVariance := fun i => if i = 0 then some 1000 else some 0
  slotCard := fun _ => none
  slotCell := fun _ => 0
  titleEmpty := fun _ => false
  recogOn := fun im v cfg =>
    if im = 0 ∧ v = 3 ∧ cfg = 0 then some ['A', 'b', 'c', 'd', 'e', 'f']
    else none

/-- A single card-shaped contour with minimum-area rectangle 7 by 10. -/
def cexContour : Contour := ⟨4, 7, 10, ptsSquare⟩

/-- A transform solver that always succeeds with handle 0. -/
def solveOk : Quad4 → Quad4 → Option Mtx := fun _ _ => some 0

/-- A warper combining the matrix and image handles. -/
def warpAdd : Mtx → Img → Img := fun m i => m + i + 1

/-- A binder run with the recognition engine unavailable. -/
def cexEnvC9u : BinderEnv where
  available := false
  imageLoads := true
  slotVariance := fun _ => some 1000
  slotCard := fun _ => none
  slotCell := fun _ => 0
  titleEmpty := fun _ => false
  recogOn := fun _ _ _ => some ['A', 'b', 'c']

/-- The binder environment of the C8 witness: every title crop empty. -/
def cexEnvC8 : BinderEnv where
  available := true
  imageLoads := true
  slotVariance := fun _ => some 1000
  slotCard := fun _ => none
  slotCell := fun _ => 0
  titleEmpty := fun _ => true
  recogOn := fun _ _ _ => some ['A', 'b', 'c']

/-- A binder run with the engine available and every slot empty. -/
def cexEnvC9e : BinderEnv where
  available := true
  imageLoads := true
  slotVariance := fun _ => some 0
  slotCard := fun _ => none
  slotCell := fun _ => 0
  titleEmpty := fun _ => false
  recogOn := fun _ _ _ => some ['A', 'b', 'c']

/- ---------------------------------------------------------------- -/
/- Character lemmas.                                                 -/
/- ---------------------------------------------------------------- -/

theorem cv_inj {c d : Char} (h : cv c = cv d) : c = d := by
  apply Char.ext
  apply UInt32.ext
  simpa [Char.toNat, cv] using h

theorem out_imp_keep {c : Char} (h : outAllowed c = true) :
    isAllowedKeep c = true := by
  simp only [outAllowed, isAsciiLetter, Bool.or_eq_true, decide_eq_true_eq] at h
  simp only [isAllowedKeep, isAsciiLetter, isPySpace, Bool.or_eq_true,
    decide_eq_true_eq]
  omega

theorem out_space_eq {c : Char} (h1 : outAllowed c = true)
    (h2 : isPySpace c = true) : c = ' ' := by
  have : cv c = 32 := by
    simp only [outAllowed, isAsciiLetter, isPySpace, Bool.or_eq_true,
      decide_eq_true_eq] at h1 h2
    omega
  exact cv_inj (by simpa [cv] using this)

theorem out_remap_id {c : Char} (h : outAllowed c = true) :
    remapChar c = c := by
  have hn : ¬ cv c = 124 ∧ ¬ cv c = 49 ∧ ¬ cv c = 48 ∧ ¬ cv c = 8212 ∧
      ¬ cv c = 8211 := by
    simp only [outAllowed, isAsciiLetter, Bool.or_eq_true,
      decide_eq_true_eq] at h
    omega
  simp only [remapChar, if_neg hn.1, if_neg hn.2.1, if_neg hn.2.2.1,
    if_neg hn.2.2.2.1, if_neg hn.2.2.2.2]

theorem out_no_newline {c : Char} (h : outAllowed c = true) : ¬ cv c = 10 := by
  simp only [outAllowed, isAsciiLetter, Bool.or_eq_true, decide_eq_true_eq] at h
  omega

theorem out_not_punct {c : Char} (h : outAllowed c = true)
    (h44 : ¬ cv c = 44) (h45 : ¬ cv c = 45) (h39 : ¬ cv c = 39) :
    isPunctStrip c = false := by
  simp only [outAllowed, isAsciiLetter, Bool.or_eq_true, decide_eq_true_eq] at h
  simp only [isPunctStrip, decide_eq_false_iff_not]
  omega

theorem keep_nonspace_out {c : Char} (h : isAllowedKeep c = true)
    (hs : isPySpace c = false) : outAllowed c = true := by
  simp only [isAllowedKeep, isAsciiLetter, isPySpace, Bool.or_eq_true,
    decide_eq_true_eq] at h
  simp only [isPySpace, decide_eq_false_iff_not] at hs
  simp only [outAllowed, isAsciiLetter, Bool.or_eq_true, decide_eq_true_eq]
  omega

theorem out_space : outAllowed ' ' = true := by decide

theorem space_isPySpace : isPySpace ' ' = true := by decide

theorem alpha_imp_out {c : Char} (h : isAsciiLetter c = true) :
    outAllowed c = true := by
  simp only [outAllowed, Bool.or_eq_true]
  exact Or.inl h

/- ---------------------------------------------------------------- -/
/- List lemmas: dropWhile, rdropP, stripP, collapseSpaces.           -/
/- ---------------------------------------------------------------- -/

theorem map_id_of {f : Char → Char} :
    ∀ l : List Char, (∀ c ∈ l, f c = c) → l.map f = l := by
  intro l h
  induction l with
  | nil => rfl
  | cons c rest ih =>
    simp only [List.map_cons, h c (by simp)]
    rw [ih (fun x hx => h x (by simp [hx]))]

theorem takeWhile_id_of {p : Char → Bool} :
    ∀ l : List Char, (∀ c ∈ l, p c = true) → l.takeWhile p = l := by
  intro l h
  induction l with
  | nil => rfl
  | cons c rest ih =>
    rw [List.takeWhile_cons, if_pos (h c (by simp))]
    rw [ih (fun x hx => h x (by simp [hx]))]

theorem dropWhile_decomp (p : Char → Bool) (l : List Char) :
    ∃ u, l = u ++ l.dropWhile p ∧ ∀ c ∈ u, p c = true := by
  induction l with
  | nil => exact ⟨[], rfl, by simp⟩
  | cons c rest ih =>
    by_cases h : p c
    · obtain ⟨u, hu, hall⟩ := ih
      refine ⟨c :: u, ?_, ?_⟩
      · rw [List.dropWhile_cons, if_pos h, List.cons_append]
        exact congrArg (c :: ·) hu
      · intro x hx
        rcases List.mem_cons.mp hx with hx | hx
        · exact hx ▸ h
        · exact hall x hx
    · refine ⟨[], ?_, by simp⟩
      rw [List.dropWhile_cons, if_neg h, List.nil_append]

theorem dropWhile_head_not (p : Char → Bool) :
    ∀ (l : List Char) (c : Char), (l.dropWhile p).head? = some c →
      p c = false := by
  intro l
  induction l with
  | nil => intro c h; simp at h
  | cons d rest ih =>
    intro c h
    rw [List.dropWhile_cons] at h
    by_cases hd : p d
    · rw [if_pos hd] at h
      exact ih c h
    · rw [if_neg hd] at h
      simp only [List.head?_cons, Option.some.injEq] at h
      subst h
      simpa using hd

theorem dropWhile_id_of (p : Char → Bool) (l : List Char)
    (h : ∀ c, l.head? = some c → p c = false) : l.dropWhile p = l := by
  cases l with
  | nil => rfl
  | cons c rest =>
    rw [List.dropWhile_cons, if_neg]
    rw [h c rfl]
    simp

theorem rdropP_decomp (p : Char → Bool) :
    ∀ l : List Char, ∃ v, l = rdropP p l ++ v ∧ ∀ c ∈ v, p c = true := by
  intro l
  induction l with
  | nil => exact ⟨[], rfl, by simp⟩
  | cons c rest ih =>
    obtain ⟨v, hv, hall⟩ := ih
    cases hr : rdropP p rest with
    | nil =>
      rw [hr, List.nil_append] at hv
      by_cases hc : p c
      · refine ⟨c :: rest, ?_, ?_⟩
        · simp [rdropP, hr, hc]
        · intro x hx
          rcases List.mem_cons.mp hx with hx | hx
          · exact hx ▸ hc
          · exact hall x (hv ▸ hx)
      · refine ⟨rest, ?_, fun x hx => hall x (hv ▸ hx)⟩
        simp [rdropP, hr, hc]
    | cons d ds =>
      refine ⟨v, ?_, hall⟩
      have : rdropP p (c :: rest) = c :: d :: ds := by
        simp [rdropP, hr]
      rw [this, List.cons_append, ← hr, ← hv]

theorem rdropP_getLast_not (p : Char → Bool) :
    ∀ l c, (rdropP p l).getLast? = some c → p c = false := by
  intro l
  induction l with
  | nil => intro c h; simp [rdropP] at h
  | cons d rest ih =>
    intro c h
    cases hr : rdropP p rest with
    | nil =>
      rw [show rdropP p (d :: rest) = if p d then [] else [d] by
        simp [rdropP, hr]] at h
      by_cases hd : p d
      · rw [if_pos hd] at h; simp at h
      · rw [if_neg hd] at h
        simp only [List.getLast?_singleton, Option.some.injEq] at h
        rw [← h]; simpa using hd
    | cons e es =>
      rw [show rdropP p (d :: rest) = d :: e :: es by simp [rdropP, hr]] at h
      rw [List.getLast?_cons_cons] at h
      exact ih c (hr ▸ h)

theorem rdropP_cons (p : Char → Bool) (c : Char) (rest : List Char) :
    rdropP p (c :: rest) =
      match rdropP p rest with
      | [] => if p c then [] else [c]
      | d :: ds => c :: d :: ds := rfl

theorem rdropP_id_of (p : Char → Bool) :
    ∀ l : List Char, (∀ c, l.getLast? = some c → p c = false) →
      rdropP p l = l := by
  intro l
  induction l with
  | nil => intro _; rfl
  | cons c rest ih =>
    intro h
    have htail : rdropP p rest = rest := by
      apply ih
      intro x hx
      apply h
      cases rest with
      | nil => simp at hx
      | cons r rs =>
        rw [List.getLast?_cons_cons]
        exact hx
    rw [rdropP_cons, htail]
    cases rest with
    | nil =>
      have hc : p c = false := h c (by simp)
      simp [hc]
    | cons r rs => rfl

theorem rdropP_head (p : Char → Bool) :
    ∀ l d ds, rdropP p l = d :: ds → l.head? = some d := by
  intro l
  induction l with
  | nil => intro d ds h; simp [rdropP] at h
  | cons c rest ih =>
    intro d ds h
    cases hr : rdropP p rest with
    | nil =>
      rw [show rdropP p (c :: rest) = if p c then [] else [c] by
        simp [rdropP, hr]] at h
      by_cases hc : p c
      · rw [if_pos hc] at h; simp at h
      · rw [if_neg hc] at h
        simp only [List.cons.injEq] at h
        simp [h.1]
    | cons e es =>
      rw [show rdropP p (c :: rest) = c :: e :: es by simp [rdropP, hr]] at h
      simp only [List.cons.injEq] at h
      simp [h.1]

theorem stripP_decomp (p : Char → Bool) (l : List Char) :
    ∃ u v, l = u ++ stripP p l ++ v ∧ (∀ c ∈ u, p c = true) ∧
      ∀ c ∈ v, p c = true := by
  obtain ⟨u, hu, hup⟩ := dropWhile_decomp p l
  obtain ⟨v, hv, hvp⟩ := rdropP_decomp p (l.dropWhile p)
  refine ⟨u, v, ?_, hup, hvp⟩
  rw [stripP, List.append_assoc, ← hv]
  exact hu

theorem stripP_mem {p : Char → Bool} {l : List Char} {c : Char}
    (h : c ∈ stripP p l) : c ∈ l := by
  obtain ⟨u, v, he, _, _⟩ := stripP_decomp p l
  rw [he]
  simp [h]

theorem stripP_head_not {p : Char → Bool} {l : List Char} {c : Char}
    (h : (stripP p l).head? = some c) : p c = false := by
  rw [stripP] at h
  cases hs : rdropP p (l.dropWhile p) with
  | nil => rw [hs] at h; simp at h
  | cons d ds =>
    rw [hs] at h
    simp only [List.head?_cons, Option.some.injEq] at h
    have := rdropP_head p (l.dropWhile p) d ds hs
    exact dropWhile_head_not p l c (h ▸ this)

theorem stripP_getLast_not {p : Char → Bool} {l : List Char} {c : Char}
    (h : (stripP p l).getLast? = some c) : p c = false :=
  rdropP_getLast_not p (l.dropWhile p) c h

theorem stripP_id_of (p : Char → Bool) (l : List Char)
    (hh : ∀ c, l.head? = some c → p c = false)
    (hl : ∀ c, l.getLast? = some c → p c = false) : stripP p l = l := by
  rw [stripP, dropWhile_id_of p l hh, rdropP_id_of p l hl]

theorem noTwo_cons_cons (c1 c2 : Char) (rest : List Char) :
    noTwoSpaces (c1 :: c2 :: rest) =
      ((!(isPySpace c1 && isPySpace c2)) && noTwoSpaces (c2 :: rest)) := rfl

theorem noTwo_append_right {a b : List Char}
    (h : noTwoSpaces (a ++ b) = true) : noTwoSpaces b = true := by
  induction a with
  | nil => exact h
  | cons c rest ih =>
    apply ih
    cases hr : rest ++ b with
    | nil => rfl
    | cons d ds =>
      simp only [List.cons_append, hr, noTwo_cons_cons,
        Bool.and_eq_true] at h
      exact h.2

theorem noTwo_append_left {a b : List Char}
    (h : noTwoSpaces (a ++ b) = true) : noTwoSpaces a = true := by
  induction a with
  | nil => rfl
  | cons c rest ih =>
    cases hrest : rest with
    | nil => rfl
    | cons d ds =>
      subst hrest
      rw [noTwo_cons_cons, Bool.and_eq_true]
      simp only [List.cons_append, noTwo_cons_cons,
        Bool.and_eq_true] at h
      exact ⟨h.1, ih (by simp only [List.cons_append]; exact h.2)⟩

theorem collapse_singleton (c : Char) :
    collapseSpaces [c] = if isPySpace c then [' '] else [c] := rfl

theorem collapse_cons_cons (c1 c2 : Char) (rest : List Char) :
    collapseSpaces (c1 :: c2 :: rest) =
      if isPySpace c1 && isPySpace c2 then collapseSpaces (c2 :: rest)
      else (if isPySpace c1 then ' ' else c1) :: collapseSpaces (c2 :: rest) :=
  rfl

theorem collapse_head? :
    ∀ (rest : List Char) (c : Char), (collapseSpaces (c :: rest)).head? =
      some (if isPySpace c then ' ' else c) := by
  intro rest
  induction rest with
  | nil =>
    intro c
    rw [collapse_singleton]
    by_cases h : isPySpace c
    · rw [if_pos h, if_pos h]; rfl
    · rw [if_neg h, if_neg h]; rfl
  | cons c2 rest2 ih =>
    intro c
    rw [collapse_cons_cons]
    by_cases h : isPySpace c && isPySpace c2
    · rw [if_pos h]
      rw [ih c2]
      rw [Bool.and_eq_true] at h
      rw [if_pos h.1, if_pos h.2]
    · rw [if_neg h]
      rfl

theorem collapse_mem :
    ∀ l : List Char, ∀ c ∈ collapseSpaces l,
      c = ' ' ∨ (c ∈ l ∧ isPySpace c = false) := by
  intro l
  induction l with
  | nil => intro c hc; simp [collapseSpaces] at hc
  | cons c1 rest ih =>
    intro c hc
    cases hrest : rest with
    | nil =>
      subst hrest
      rw [collapse_singleton] at hc
      by_cases h1 : isPySpace c1
      · rw [if_pos h1] at hc
        simp only [List.mem_singleton] at hc
        exact Or.inl hc
      · rw [if_neg h1] at hc
        simp only [List.mem_singleton] at hc
        subst hc
        exact Or.inr ⟨by simp, by simpa using h1⟩
    | cons c2 rest2 =>
      subst hrest
      rw [collapse_cons_cons] at hc
      by_cases h : isPySpace c1 && isPySpace c2
      · rw [if_pos h] at hc
        rcases ih c hc with h1 | ⟨h1, h2⟩
        · exact Or.inl h1
        · exact Or.inr ⟨by simp [h1], h2⟩
      · rw [if_neg h] at hc
        rcases List.mem_cons.mp hc with hc | hc
        · by_cases h1 : isPySpace c1
          · rw [if_pos h1] at hc
            exact Or.inl hc
          · rw [if_neg h1] at hc
            subst hc
            exact Or.inr ⟨by simp, by simpa using h1⟩
        · rcases ih c hc with h1 | ⟨h1, h2⟩
          · exact Or.inl h1
          · exact Or.inr ⟨by simp [h1], h2⟩

theorem collapse_noTwo : ∀ l : List Char,
    noTwoSpaces (collapseSpaces l) = true := by
  intro l
  induction l with
  | nil => rfl
  | cons c1 rest ih =>
    cases hrest : rest with
    | nil =>
      subst hrest
      rw [collapse_singleton]
      by_cases h1 : isPySpace c1
      · rw [if_pos h1]; rfl
      · rw [if_neg h1]; rfl
    | cons c2 rest2 =>
      subst hrest
      rw [collapse_cons_cons]
      by_cases h : isPySpace c1 && isPySpace c2
      · rw [if_pos h]
        exact ih
      · rw [if_neg h]
        cases hC : collapseSpaces (c2 :: rest2) with
        | nil =>
          have := collapse_head? rest2 c2
          rw [hC] at this
          simp at this
        | cons d ds =>
          have hd : d = if isPySpace c2 then ' ' else c2 := by
            have := collapse_head? rest2 c2
            rw [hC] at this
            simpa using this
          rw [noTwo_cons_cons, Bool.and_eq_true]
          have hff : (isPySpace c1 && isPySpace c2) = false := by
            cases hb : (isPySpace c1 && isPySpace c2) with
            | false => rfl
            | true => exact absurd hb h
          constructor
          · have hspd : isPySpace d = isPySpace c2 := by
              by_cases h2 : isPySpace c2
              · rw [hd, if_pos h2, h2, space_isPySpace]
              · rw [hd, if_neg h2]
            have hspc : isPySpace (if isPySpace c1 then ' ' else c1) =
                isPySpace c1 := by
              by_cases h1 : isPySpace c1
              · rw [if_pos h1, h1, space_isPySpace]
              · rw [if_neg h1]
            rw [hspd, hspc, hff]
            rfl
          · rw [← hC]
            exact ih

theorem collapse_id : ∀ l : List Char,
    (∀ c ∈ l, isPySpace c = true → c = ' ') → noTwoSpaces l = true →
      collapseSpaces l = l := by
  intro l
  induction l with
  | nil => intro _ _; rfl
  | cons c1 rest ih =>
    intro hsp hnt
    cases hrest : rest with
    | nil =>
      subst hrest
      rw [collapse_singleton]
      by_cases h1 : isPySpace c1
      · rw [if_pos h1, hsp c1 (by simp) h1]
      · rw [if_neg h1]
    | cons c2 rest2 =>
      subst hrest
      rw [collapse_cons_cons]
      rw [noTwo_cons_cons, Bool.and_eq_true] at hnt
      have hcc : (isPySpace c1 && isPySpace c2) = false := by
        cases hb : (isPySpace c1 && isPySpace c2) with
        | false => rfl
        | true =>
          rw [hb] at hnt
          simp at hnt
      rw [hcc]
      simp only [Bool.false_eq_true, if_false]
      have htail : collapseSpaces (c2 :: rest2) = c2 :: rest2 :=
        ih (fun x hx h => hsp x (by simp [hx]) h) hnt.2
      rw [htail]
      by_cases h1 : isPySpace c1
      · rw [if_pos h1, hsp c1 (by simp) h1]
      · rw [if_neg h1]

/- ---------------------------------------------------------------- -/
/- Selection lemmas: listMaxN, find?, bestFold, stable sort.         -/
/- ---------------------------------------------------------------- -/

theorem listMaxN_cons (f : α → Nat) (x : α) (l : List α) :
    listMaxN f (x :: l) = max (f x) (listMaxN f l) := rfl

theorem le_listMaxN (f : α → Nat) : ∀ l : List α, ∀ x ∈ l,
    f x ≤ listMaxN f l := by
  intro l
  induction l with
  | nil => intro x hx; simp at hx
  | cons y rest ih =>
    intro x hx
    rw [listMaxN_cons]
    rcases List.mem_cons.mp hx with hx | hx
    · subst hx
      omega
    · have := ih x hx
      omega

theorem listMaxN_attain (f : α → Nat) :
    ∀ l : List α, l ≠ [] → ∃ x ∈ l, f x = listMaxN f l := by
  intro l
  induction l with
  | nil => intro h; exact absurd rfl h
  | cons y rest ih =>
    intro _
    cases hrest : rest with
    | nil =>
      refine ⟨y, by simp, ?_⟩
      subst hrest
      rw [listMaxN_cons]
      simp [listMaxN]
    | cons z zs =>
      subst hrest
      obtain ⟨x, hxm, hx⟩ := ih (by simp)
      rw [listMaxN_cons]
      by_cases hc : listMaxN f (z :: zs) ≤ f y
      · exact ⟨y, by simp, by omega⟩
      · exact ⟨x, List.mem_cons.mpr (Or.inr hxm), by omega⟩

theorem find?_congr_mem {p q : α → Bool} :
    ∀ l : List α, (∀ x ∈ l, p x = q x) → l.find? p = l.find? q := by
  intro l
  induction l with
  | nil => intro _; rfl
  | cons x rest ih =>
    intro h
    cases hqx : q x with
    | true =>
      rw [List.find?_cons_of_pos _ ((h x (by simp)).trans hqx),
        List.find?_cons_of_pos _ hqx]
    | false =>
      rw [List.find?_cons_of_neg _ (by rw [h x (by simp), hqx]; simp),
        List.find?_cons_of_neg _ (by rw [hqx]; simp)]
      exact ih fun y hy => h y (by simp [hy])

theorem bestFold_cons (f : α → Nat) (x : α) (l : List α)
    (acc : Option α × Nat) :
    bestFold f (x :: l) acc =
      bestFold f l (if f x > acc.2 then (some x, f x) else acc) := rfl

theorem bestFold_eq_find (f : α → Nat) :
    ∀ (l : List α) (b : Option α) (bs : Nat),
      (bestFold f l (b, bs)).1 =
        match l.find? fun x =>
            decide (bs < f x) && decide (listMaxN f l ≤ f x) with
        | some y => some y
        | none => b := by
  intro l
  induction l with
  | nil => intro b bs; rfl
  | cons x rest ih =>
    intro b bs
    rw [bestFold_cons]
    by_cases hx : f x > bs
    · rw [if_pos hx, ih]
      simp only [List.find?_cons]
      by_cases hmax : listMaxN f rest ≤ f x
      · have hLnone : (rest.find? fun y =>
            decide (f x < f y) && decide (listMaxN f rest ≤ f y)) = none := by
          rw [List.find?_eq_none]
          intro y hy hcon
          rw [Bool.and_eq_true, decide_eq_true_eq, decide_eq_true_eq] at hcon
          have := le_listMaxN f rest y hy
          omega
        have hxpass : (decide (bs < f x) &&
            decide (listMaxN f (x :: rest) ≤ f x)) = true := by
          rw [Bool.and_eq_true, decide_eq_true_eq, decide_eq_true_eq,
            listMaxN_cons]
          omega
        rw [hLnone, hxpass]
      · have hxfail : (decide (bs < f x) &&
            decide (listMaxN f (x :: rest) ≤ f x)) = false := by
          rw [listMaxN_cons]
          have h3 : ¬ (max (f x) (listMaxN f rest) ≤ f x) := by omega
          simp [h3]
        rw [hxfail]
        have hcongr : (rest.find? fun y =>
            decide (f x < f y) && decide (listMaxN f rest ≤ f y)) =
            rest.find? fun y => decide (bs < f y) &&
              decide (listMaxN f (x :: rest) ≤ f y) := by
          apply find?_congr_mem
          intro y hy
          rw [listMaxN_cons]
          have hyle := le_listMaxN f rest y hy
          by_cases hcase : listMaxN f rest ≤ f y
          · have h1 : f x < f y := by omega
            have h2 : bs < f y := by omega
            have h3 : max (f x) (listMaxN f rest) ≤ f y := by omega
            simp [h1, h2, h3, hcase]
          · have h3 : ¬ (max (f x) (listMaxN f rest) ≤ f y) := by omega
            simp [hcase, h3]
        rw [hcongr]
        obtain ⟨y0, hy0m, hy0⟩ := listMaxN_attain f rest (by
          intro hr0
          subst hr0
          simp [listMaxN] at hmax)
        cases hfind : (rest.find? fun y => decide (bs < f y) &&
            decide (listMaxN f (x :: rest) ≤ f y)) with
        | none =>
          exfalso
          have := List.find?_eq_none.mp hfind y0 hy0m
          apply this
          rw [Bool.and_eq_true, decide_eq_true_eq, decide_eq_true_eq,
            listMaxN_cons]
          omega
        | some y => rfl
    · rw [if_neg hx, ih]
      simp only [List.find?_cons]
      have hxfail : (decide (bs < f x) &&
          decide (listMaxN f (x :: rest) ≤ f x)) = false := by
        have h3 : ¬ (bs < f x) := hx
        simp [h3]
      rw [hxfail]
      have hcongr : (rest.find? fun y =>
          decide (bs < f y) && decide (listMaxN f rest ≤ f y)) =
          rest.find? fun y => decide (bs < f y) &&
            decide (listMaxN f (x :: rest) ≤ f y) := by
        apply find?_congr_mem
        intro y hy
        rw [listMaxN_cons]
        by_cases hcase : bs < f y
        · have h1 : (max (f x) (listMaxN f rest) ≤ f y) ↔
              (listMaxN f rest ≤ f y) := by omega
          simp [hcase, h1]
        · simp [hcase]
      rw [hcongr]

theorem bestFold_none (f : α → Nat) (l : List α)
    (hpos : ∀ x ∈ l, 0 < f x) :
    (bestFold f l (none, 0)).1 = firstMaxD f l := by
  rw [bestFold_eq_find]
  have hcongr : (l.find? fun x =>
      decide (0 < f x) && decide (listMaxN f l ≤ f x)) =
      l.find? fun x => decide (listMaxN f l ≤ f x) := by
    apply find?_congr_mem
    intro x hx
    simp [hpos x hx]
  rw [hcongr, firstMaxD]
  cases hf : l.find? fun x => decide (listMaxN f l ≤ f x) with
  | none => rfl
  | some y => rfl

theorem insertDescBy_cons (f : α → Nat) (x y : α) (rest : List α) :
    insertDescBy f x (y :: rest) =
      if f y > f x then y :: insertDescBy f x rest
      else x :: y :: rest := rfl

theorem insertDescBy_head? (f : α → Nat) (x : α) (l : List α) :
    (insertDescBy f x l).head? =
      some (match l.head? with
        | none => x
        | some y => if f y > f x then y else x) := by
  cases l with
  | nil => rfl
  | cons y rest =>
    rw [insertDescBy_cons]
    by_cases h : f y > f x
    · rw [if_pos h]
      simp [h]
    · rw [if_neg h]
      simp [h]

theorem sortDescBy_cons (f : α → Nat) (x : α) (l : List α) :
    sortDescBy f (x :: l) = insertDescBy f x (sortDescBy f l) := rfl

theorem sortDescBy_head? (f : α → Nat) :
    ∀ l : List α, (sortDescBy f l).head? = firstMaxD f l := by
  intro l
  induction l with
  | nil => rfl
  | cons x rest ih =>
    rw [sortDescBy_cons, insertDescBy_head?, ih, firstMaxD, firstMaxD]
    simp only [List.find?_cons]
    cases hf : rest.find? fun y => decide (listMaxN f rest ≤ f y) with
    | none =>
      have hrest : rest = [] := by
        cases hr2 : rest with
        | nil => rfl
        | cons z zs =>
          exfalso
          obtain ⟨y0, hy0m, hy0⟩ := listMaxN_attain f rest (by simp [hr2])
          exact List.find?_eq_none.mp hf y0 hy0m
            (by rw [decide_eq_true_eq]; omega)
      subst hrest
      have hxpass : decide (listMaxN f [x] ≤ f x) = true := by
        rw [decide_eq_true_eq, listMaxN_cons]
        simp [listMaxN]
      rw [hxpass]
    | some y =>
      have hym := List.mem_of_find?_eq_some hf
      have hyp := List.find?_some hf
      rw [decide_eq_true_eq] at hyp
      have hyle := le_listMaxN f rest y hym
      by_cases hcmp : f y > f x
      · have hxfail : decide (listMaxN f (x :: rest) ≤ f x) = false := by
          rw [listMaxN_cons]
          have h3 : ¬ (max (f x) (listMaxN f rest) ≤ f x) := by omega
          simp [h3]
        have hcongr : (rest.find? fun z =>
            decide (listMaxN f (x :: rest) ≤ f z)) =
            rest.find? fun z => decide (listMaxN f rest ≤ f z) := by
          apply find?_congr_mem
          intro z hz
          rw [listMaxN_cons]
          apply decide_eq_decide.mpr
          omega
        rw [hxfail, hcongr, hf]
        simp [hcmp]
      · have hxpass : decide (listMaxN f (x :: rest) ≤ f x) = true := by
          rw [decide_eq_true_eq, listMaxN_cons]
          omega
        rw [hxpass]
        simp [hcmp]

theorem insertDescBy_mem (f : α → Nat) (x : α) :
    ∀ (l : List α) (z : α), z ∈ insertDescBy f x l → z = x ∨ z ∈ l := by
  intro l
  induction l with
  | nil =>
    intro z hz
    simp [insertDescBy] at hz
    exact Or.inl hz
  | cons y rest ih =>
    intro z hz
    rw [insertDescBy_cons] at hz
    by_cases h : f y > f x
    · rw [if_pos h] at hz
      rcases List.mem_cons.mp hz with hz | hz
      · exact Or.inr (by simp [hz])
      · rcases ih z hz with hz | hz
        · exact Or.inl hz
        · exact Or.inr (by simp [hz])
    · rw [if_neg h] at hz
      rcases List.mem_cons.mp hz with hz | hz
      · exact Or.inl hz
      · exact Or.inr hz

theorem sortDescBy_mem (f : α → Nat) :
    ∀ (l : List α) (z : α), z ∈ sortDescBy f l → z ∈ l := by
  intro l
  induction l with
  | nil => intro z hz; simp [sortDescBy] at hz
  | cons x rest ih =>
    intro z hz
    rw [sortDescBy_cons] at hz
    rcases insertDescBy_mem f x _ z hz with hz | hz
    · simp [hz]
    · simp [ih z hz]

theorem run_ocr_eq_firstMax (recognize : Nat → Option (List Char)) :
    run_ocr recognize =
      (firstMaxD (fun p => p.2) (ocrResults recognize)).map fun p => p.1 := by
  have hh := sortDescBy_head? (fun p : List Char × Nat => p.2)
    (ocrResults recognize)
  rw [run_ocr]
  cases hs : sortDescBy (fun p : List Char × Nat => p.2)
      (ocrResults recognize) with
  | nil =>
    rw [hs] at hh
    rw [← hh]
    rfl
  | cons r rs =>
    rw [hs] at hh
    rw [← hh]
    rfl

theorem nameLoop_cons_some (t : List Char)
    (rest : List (Option (List Char))) (b : Option (List Char)) (bs : Nat) :
    nameLoop (some t :: rest) b bs =
      if 12 ≤ alphaCount t then (if alphaCount t > bs then some t else b)
      else nameLoop rest (if alphaCount t > bs then some t else b)
        (if alphaCount t > bs then alphaCount t else bs) := rfl

theorem upToGood_cons_some (t : List Char)
    (rest : List (Option (List Char))) :
    upToGood (some t :: rest) =
      if 12 ≤ alphaCount t then [some t] else some t :: upToGood rest := rfl

theorem nameLoop_eq_bestFold :
    ∀ (items : List (Option (List Char))) (b : Option (List Char)) (bs : Nat),
      nameLoop items b bs =
        (bestFold alphaCount (candList (upToGood items)) (b, bs)).1 := by
  intro items
  induction items with
  | nil => intro b bs; rfl
  | cons r rest ih =>
    intro b bs
    cases r with
    | none =>
      have h1 : nameLoop (none :: rest) b bs = nameLoop rest b bs := rfl
      have h2 : candList (upToGood (none :: rest)) =
          candList (upToGood rest) := rfl
      rw [h1, h2, ih]
    | some t =>
      rw [nameLoop_cons_some, upToGood_cons_some]
      by_cases h12 : 12 ≤ alphaCount t
      · rw [if_pos h12, if_pos h12]
        have h3 : candList [some t] = [t] := rfl
        rw [h3, bestFold_cons]
        by_cases hgt : alphaCount t > bs
        · rw [if_pos hgt, if_pos hgt]
          rfl
        · rw [if_neg hgt, if_neg hgt]
          rfl
      · rw [if_neg h12, if_neg h12]
        have h3 : candList (some t :: upToGood rest) =
            t :: candList (upToGood rest) := rfl
        rw [h3, bestFold_cons, ih]
        by_cases hgt : alphaCount t > bs
        · rw [if_pos hgt, if_pos hgt, if_pos hgt]
        · rw [if_neg hgt, if_neg hgt, if_neg hgt]

theorem nameLoop_mem :
    ∀ (items : List (Option (List Char))) (b : Option (List Char)) (bs : Nat)
      (t : List Char), nameLoop items b bs = some t →
        b = some t ∨ some t ∈ items := by
  intro items
  induction items with
  | nil => intro b bs t h; exact Or.inl h
  | cons r rest ih =>
    intro b bs t h
    cases r with
    | none =>
      rcases ih b bs t h with h2 | h2
      · exact Or.inl h2
      · exact Or.inr (by simp [h2])
    | some u =>
      rw [nameLoop_cons_some] at h
      by_cases h12 : 12 ≤ alphaCount u
      · rw [if_pos h12] at h
        by_cases hgt : alphaCount u > bs
        · rw [if_pos hgt] at h
          exact Or.inr (by simp [h])
        · rw [if_neg hgt] at h
          exact Or.inl h
      · rw [if_neg h12] at h
        rcases ih _ _ t h with h2 | h2
        · by_cases hgt : alphaCount u > bs
          · rw [if_pos hgt] at h2
            exact Or.inr (by simp [h2])
          · rw [if_neg hgt] at h2
            exact Or.inl h2
        · exact Or.inr (by simp [h2])

theorem candList_upToGood_sub :
    ∀ (items : List (Option (List Char))) (t : List Char),
      t ∈ candList (upToGood items) → t ∈ candList items := by
  intro items
  induction items with
  | nil => intro t h; exact h
  | cons r rest ih =>
    intro t h
    cases r with
    | none =>
      have h2 : candList (upToGood (none :: rest)) =
          candList (upToGood rest) := rfl
      rw [h2] at h
      have h3 : candList (none :: rest) = candList rest := rfl
      rw [h3]
      exact ih t h
    | some u =>
      rw [upToGood_cons_some] at h
      have h3 : candList (some u :: rest) = u :: candList rest := rfl
      rw [h3]
      by_cases h12 : 12 ≤ alphaCount u
      · rw [if_pos h12] at h
        have h4 : candList [some u] = [u] := rfl
        rw [h4] at h
        simp only [List.mem_singleton] at h
        simp [h]
      · rw [if_neg h12] at h
        have h4 : candList (some u :: upToGood rest) =
            u :: candList (upToGood rest) := rfl
        rw [h4] at h
        rcases List.mem_cons.mp h with h5 | h5
        · simp [h5]
        · simp [ih t h5]

theorem ocrResults_mem {recognize : Nat → Option (List Char)}
    {r : List Char × Nat} (h : r ∈ ocrResults recognize) :
    ∃ raw, clean_ocr_result raw = some r.1 := by
  rw [ocrResults] at h
  obtain ⟨cfg, _, heq⟩ := List.mem_filterMap.mp h
  cases hrec : recognize cfg with
  | none =>
    rw [hrec] at heq
    simp at heq
  | some raw =>
    rw [hrec] at heq
    cases hcl : clean_ocr_result raw with
    | none =>
      rw [show (some raw).bind clean_ocr_result = clean_ocr_result raw
        from rfl, hcl] at heq
      simp at heq
    | some u =>
      rw [show (some raw).bind clean_ocr_result = clean_ocr_result raw
        from rfl, hcl] at heq
      have heq2 : (u, scoreCand u) = r := by simpa using heq
      refine ⟨raw, ?_⟩
      rw [hcl, ← heq2]

theorem run_ocr_origin {recognize : Nat → Option (List Char)}
    {t : List Char} (h : run_ocr recognize = some t) :
    ∃ raw, clean_ocr_result raw = some t := by
  rw [run_ocr] at h
  cases hs : sortDescBy (fun p : List Char × Nat => p.2)
      (ocrResults recognize) with
  | nil =>
    rw [hs] at h
    simp at h
  | cons r rs =>
    rw [hs] at h
    have hr : r ∈ ocrResults recognize :=
      sortDescBy_mem _ _ r (by rw [hs]; simp)
    obtain ⟨raw, hraw⟩ := ocrResults_mem hr
    injection h with h2
    exact ⟨raw, by rw [hraw, h2]⟩

theorem pipelineItems_origin {env : OcrEnv} {r : Option (List Char)}
    (h : r ∈ pipelineItems env) :
    ∃ im v, r = run_ocr (env.recogOn im v) := by
  rw [pipelineItems] at h
  obtain ⟨im, _, hr⟩ := List.mem_flatMap.mp h
  by_cases ht : env.titleEmpty im
  · rw [if_pos ht] at hr
    simp at hr
  · rw [if_neg ht] at hr
    obtain ⟨v, _, hr2⟩ := List.mem_map.mp hr
    exact ⟨im, v, hr2.symm⟩

theorem clean_eq (raw : List Char) :
    clean_ocr_result raw =
      if raw.isEmpty then none
      else if alphaCount (cleanCore raw) < 3 then none
      else some (cleanCore raw) := rfl

theorem clean_shape {raw t : List Char} (h : clean_ocr_result raw = some t) :
    (∀ c ∈ t, outAllowed c = true) ∧ noTwoSpaces t = true ∧
      (∀ c, t.head? = some c → isPySpace c = false) ∧
      (∀ c, t.getLast? = some c → isPySpace c = false) ∧
      3 ≤ alphaCount t := by
  rw [clean_eq] at h
  by_cases he : raw.isEmpty
  · rw [if_pos he] at h
    exact absurd h (by simp)
  · rw [if_neg he] at h
    by_cases hc : alphaCount (cleanCore raw) < 3
    · rw [if_pos hc] at h
      exact absurd h (by simp)
    · rw [if_neg hc] at h
      have ht : t = cleanCore raw := by
        injection h with h2
        exact h2.symm
      subst ht
      rw [cleanCore] at hc ⊢
      refine ⟨?_, ?_, ?_, ?_, by omega⟩
      · intro c hc2
        have h1 := stripP_mem hc2
        rcases collapse_mem _ c h1 with h2 | ⟨h2, h3⟩
        · subst h2
          exact out_space
        · exact keep_nonspace_out (List.mem_filter.mp h2).2 h3
      · obtain ⟨u, v, he2, _, _⟩ := stripP_decomp isPySpace
          (collapseSpaces ((stripP isPunctStrip ((stripP isPySpace
            (firstLine raw)).map remapChar)).filter isAllowedKeep))
        have h5 := collapse_noTwo ((stripP isPunctStrip ((stripP isPySpace
          (firstLine raw)).map remapChar)).filter isAllowedKeep)
        rw [he2] at h5
        exact noTwo_append_right (noTwo_append_left h5)
      · intro c hcc
        exact stripP_head_not hcc
      · intro c hcc
        exact stripP_getLast_not hcc

theorem clean_fix {t : List Char}
    (hmem : ∀ c ∈ t, outAllowed c = true) (hnt : noTwoSpaces t = true)
    (hh : ∀ c, t.head? = some c → isPySpace c = false)
    (hl : ∀ c, t.getLast? = some c → isPySpace c = false)
    (hcnt : 3 ≤ alphaCount t)
    (hhp : ∀ c, t.head? = some c → isPunctStrip c = false)
    (hlp : ∀ c, t.getLast? = some c → isPunctStrip c = false) :
    clean_ocr_result t = some t := by
  have hne : t ≠ [] := by
    intro h
    subst h
    simp [alphaCount] at hcnt
  have hemp : t.isEmpty = false := by
    cases t with
    | nil => exact absurd rfl hne
    | cons c rest => rfl
  have e1 : firstLine t = t :=
    takeWhile_id_of t fun c hc => decide_eq_true (out_no_newline (hmem c hc))
  have e2 : stripP isPySpace t = t := stripP_id_of _ _ hh hl
  have e3 : t.map remapChar = t :=
    map_id_of t fun c hc => out_remap_id (hmem c hc)
  have e4 : stripP isPunctStrip t = t := stripP_id_of _ _ hhp hlp
  have e5 : t.filter isAllowedKeep = t :=
    List.filter_eq_self.mpr fun c hc => out_imp_keep (hmem c hc)
  have e6 : collapseSpaces t = t :=
    collapse_id t (fun c hc hsp => out_space_eq (hmem c hc) hsp) hnt
  have hcore : cleanCore t = t := by
    rw [cleanCore, e1, e2, e3, e4, e5, e6, e2]
  rw [clean_eq, hemp, hcore]
  simp only [Bool.false_eq_true, if_false]
  rw [if_neg (by omega)]

theorem run_ocr_shape {recognize : Nat → Option (List Char)}
    {t : List Char} (h : run_ocr recognize = some t) :
    (∀ c ∈ t, outAllowed c = true) ∧ 3 ≤ alphaCount t := by
  obtain ⟨raw, hraw⟩ := run_ocr_origin h
  obtain ⟨hmem, _, _, _, hcnt⟩ := clean_shape hraw
  exact ⟨hmem, hcnt⟩

/-- C10: the confusion remap runs on the whole first line before the
character filter and the three-letter minimum, so remapped digits count
as letters: the input 101, whose first line has no alphabetic character
at all, cleans to the surviving candidate lOl. -/
theorem claim10_remap_before_filter :
    clean_ocr_result ['1', '0', '1'] = some ['l', 'O', 'l'] ∧
      alphaCount ['1', '0', '1'] = 0 ∧
      alphaCount (firstLine ['1', '0', '1']) = 0 := by
  decide

/-- C2 counterexample: on an axis-aligned square, order_points places the
point of maximal x minus y (namely (10, 0)) second, not the point of
minimal x minus y as the claim states, so the claimed formula (which
would place (0, 10) second) disagrees with the code; and on a quadruple
with only three distinct points order_points returns a quadruple instead
of failing, while the claimed behavior is a failure. -/
theorem claim2_cex :
    order_points ptsSquare = (⟨0, 0⟩, ⟨10, 0⟩, ⟨10, 10⟩, ⟨0, 10⟩) ∧
      orderQuadrilateralPointsSpec ptsSquare =
        some (⟨0, 0⟩, ⟨0, 10⟩, ⟨10, 10⟩, ⟨10, 0⟩) ∧
      (⟨10, 0⟩ : Pt) ≠ ⟨0, 10⟩ ∧
      order_points ptsDup = (⟨0, 0⟩, ⟨10, 0⟩, ⟨10, 10⟩, ⟨0, 0⟩) ∧
      orderQuadrilateralPointsSpec ptsDup = none := by
  refine ⟨?_, ?_, ?_, ?_, ?_⟩ <;>
    norm_num [order_points, orderQuadrilateralPointsSpec, ptsList, firstIdxMinBy,
      firstIdxMaxBy, minVal?, ratMin, sumXY, diffYX, ptsSquare, ptsDup, pt0,
      Pt.mk.injEq, List.Nodup]

/-- C4 counterexample: cleaning is not idempotent.  The raw text
abc comma plus-minus cleans to abc comma (the character filter exposes a
trailing comma after the edge-punctuation strip has already run), and
cleaning that output strips the comma, producing a different result. -/
theorem claim4_cex :
    clean_ocr_result ['a', 'b', 'c', ',', '±'] = some ['a', 'b', 'c', ','] ∧
      clean_ocr_result ['a', 'b', 'c', ','] = some ['a', 'b', 'c'] ∧
      (clean_ocr_result ['a', 'b', 'c', ',', '±']).bind clean_ocr_result ≠
        clean_ocr_result ['a', 'b', 'c', ',', '±'] := by
  decide

/-- C4 (amended): cleaning is idempotent on every candidate it produces
that neither starts nor ends with a stripped punctuation character
(among producible characters these are exactly comma, hyphen and
apostrophe): if cleaning x produces t and the ends of t are not such
characters, then cleaning t produces t again. -/
theorem claim4_amended (x t : List Char) (h : clean_ocr_result x = some t)
    (hhp : ∀ c, t.head? = some c → isPunctStrip c = false)
    (hlp : ∀ c, t.getLast? = some c → isPunctStrip c = false) :
    clean_ocr_result t = some t := by
  obtain ⟨hmem, hnt, hh, hl, hcnt⟩ := clean_shape h
  exact clean_fix hmem hnt hh hl hcnt hhp hlp

/-- C4 witness: the amended idempotence applied at the concrete
candidate Lightning Bolt, a fixed point of cleaning. -/
theorem claim4_amended_witness :
    clean_ocr_result nameLB = some nameLB := by
  apply claim4_amended nameLB nameLB (by decide)
  · intro c hc
    rw [show nameLB.head? = some 'L' from rfl] at hc
    injection hc with hc2
    subst hc2
    decide
  · intro c hc
    rw [show nameLB.getLast? = some 't' from rfl] at hc
    injection hc with hc2
    subst hc2
    decide

/-- C1 (amended): within one preprocessed variant, run_ocr selects the
earliest candidate of maximal full-formula score among its four
configurations; across strategies and variants the pipeline selects the
earliest candidate of maximal alphabetic count among the results it
considers, and consideration stops with the first result whose
alphabetic count reaches 12 (the early exit tests the alphabetic count,
not the full formula). -/
theorem claim1_amended :
    (∀ recognize, run_ocr recognize =
        (firstMaxD (fun p => p.2) (ocrResults recognize)).map fun p => p.1) ∧
    ∀ env, extract_card_name_from_image env =
      if env.available && env.imageLoads then
        firstMaxD alphaCount (candList (upToGood (pipelineItems env)))
      else none := by
  refine ⟨run_ocr_eq_firstMax, ?_⟩
  intro env
  rw [extract_card_name_from_image]
  cases hav : env.available with
  | false => simp [hav]
  | true =>
    cases hld : env.imageLoads with
    | false => simp [hav, hld]
    | true =>
      simp only [hav, hld, Bool.true_eq_false, if_false, Bool.and_self,
        if_true]
      rw [nameLoop_eq_bestFold]
      apply bestFold_none
      intro t ht
      obtain ⟨r, hr, hid⟩ :=
        List.mem_filterMap.mp (candList_upToGood_sub _ t ht)
      obtain ⟨im, v, hrw⟩ := pipelineItems_origin hr
      have hro : run_ocr (env.recogOn im v) = some t := by
        rw [← hrw]
        exact hid
      have := (run_ocr_shape hro).2
      omega

/-- C3: every cleaned candidate that survives cleaning contains only
letters, spaces, hyphens, apostrophes and commas, is nonempty, and has
at least three alphabetic characters; consequently any candidate that
run_ocr selects, and any candidate the single-card pipeline returns,
satisfies the same at-least-three-letters invariant. -/
theorem claim3_invariant :
    (∀ raw t, clean_ocr_result raw = some t →
        (∀ c ∈ t, outAllowed c = true) ∧ t ≠ [] ∧ 3 ≤ alphaCount t) ∧
    (∀ recognize t, run_ocr recognize = some t →
        (∀ c ∈ t, outAllowed c = true) ∧ 3 ≤ alphaCount t) ∧
    ∀ env t, extract_card_name_from_image env = some t →
      (∀ c ∈ t, outAllowed c = true) ∧ 3 ≤ alphaCount t := by
  refine ⟨?_, ?_, ?_⟩
  · intro raw t h
    obtain ⟨hmem, _, _, _, hcnt⟩ := clean_shape h
    refine ⟨hmem, ?_, hcnt⟩
    intro hnil
    subst hnil
    simp [alphaCount] at hcnt
  · intro recognize t h
    exact run_ocr_shape h
  · intro env t h
    rw [extract_card_name_from_image] at h
    by_cases hav : env.available = false
    · rw [if_pos hav] at h
      exact absurd h (by simp)
    · rw [if_neg hav] at h
      by_cases hld : env.imageLoads = false
      · rw [if_pos hld] at h
        exact absurd h (by simp)
      · rw [if_neg hld] at h
        rcases nameLoop_mem _ _ _ _ h with h2 | h2
        · exact absurd h2.symm (by simp)
        · obtain ⟨im, v, hrw⟩ := pipelineItems_origin h2
          exact run_ocr_shape hrw.symm

/-- C3 witness: the invariant instantiated at the candidate produced by
cleaning the raw text Lightning Bolt. -/
theorem claim3_invariant_witness :
    (∀ c ∈ nameLB, outAllowed c = true) ∧ nameLB ≠ [] ∧
      3 ≤ alphaCount nameLB :=
  claim3_invariant.1 nameLB nameLB (by decide)

/-- C1 counterexample: the pipeline selects the candidate abcd, whose
letter count 4 beats ABC with letter count 3, although under the claimed
full formula ABC scores 9 against 4 for abcd; no candidate reaches score
12, so the claimed selection admits no early exit and must return ABC,
which differs from what the code returns. -/
theorem claim1_cex :
    extract_card_name_from_image cexEnvC1 = some ['a', 'b', 'c', 'd'] ∧
      specSelectAll cexEnvC1 = some ['A', 'B', 'C'] ∧
      (specCandidatesAll cexEnvC1).all (fun t => decide (scoreCand t < 12)) =
        true ∧
      extract_card_name_from_image cexEnvC1 ≠ specSelectAll cexEnvC1 := by
  decide

/-- C6 counterexample: when the transform computation fails, the code
returns none (no card) rather than the unwarped resize the claim
describes, as the spec-worded rectifier would. -/
theorem claim6_cex :
    extract_card_perspective (fun _ _ => none) (fun _ i => i) 7 ptsSquare =
      none ∧
      extractCardPerspectiveSpec (fun _ _ => none) (fun _ i => i)
        (fun i => i) 7 ptsSquare = some 7 ∧
      extract_card_perspective (fun _ _ => none) (fun _ i => i) 7 ptsSquare ≠
        extractCardPerspectiveSpec (fun _ _ => none) (fun _ i => i)
          (fun i => i) 7 ptsSquare := by
  decide

/-- C7 counterexample: slot 0 is not empty and variant 3 of the
preprocessor yields the readable candidate Abcdef, but the binder loop
consults only the first three variants and reports no candidate, while
the claimed full single-card pipeline over all variants reports Abcdef. -/
theorem claim7_cex :
    (extract_cards_from_binder_page cexEnvC7).get? 0 = some none ∧
      is_empty_slot (cexEnvC7.slotVariance 0) = false ∧
      run_ocr (cexEnvC7.recogOn 0 3) = some ['A', 'b', 'c', 'd', 'e', 'f'] ∧
      binderSlotAllVariants cexEnvC7 0 = some ['A', 'b', 'c', 'd', 'e', 'f'] ∧
      binderSlotResult cexEnvC7 0 = none := by
  decide

/-- C9 counterexample: with the engine unavailable the batch returns
nine none results, exactly the output of an available engine over nine
empty slots, so no slot result carries an explicit unavailable reason
distinguishable from an empty or unreadable slot. -/
theorem claim9_cex :
    extract_cards_from_binder_page cexEnvC9u = List.replicate 9 none ∧
      extract_cards_from_binder_page cexEnvC9e = List.replicate 9 none ∧
      cexEnvC9u.available = false ∧
      cexEnvC9e.available = true ∧
      extract_cards_from_binder_page cexEnvC9u =
        extract_cards_from_binder_page cexEnvC9e := by
  decide

theorem binderSlot_char_eq (env : BinderEnv) (i : Nat) :
    binderSlotResult env i = binderSlotChar env i := by
  simp only [binderSlotResult, binderSlotChar]
  by_cases he : is_empty_slot (env.slotVariance i)
  · rw [if_pos he, if_pos he]
  · rw [if_neg he, if_neg he]
    by_cases ht : env.titleEmpty ((env.slotCard i).getD (env.slotCell i))
    · rw [if_pos ht, if_pos ht]
    · rw [if_neg ht, if_neg ht]
      apply bestFold_none
      intro t hmem
      obtain ⟨r, hr, hid⟩ := List.mem_filterMap.mp hmem
      obtain ⟨v, _, hr2⟩ := List.mem_map.mp hr
      have hro : run_ocr (env.recogOn
          ((env.slotCard i).getD (env.slotCell i)) v) = some t := by
        rw [hr2]
        exact hid
      have := (run_ocr_shape hro).2
      omega

/-- C7 (amended): the segmenter divides the page into nine cells by
integer division with a fixed inward padding of 15 (so the cells are
equal, of size one third of the page minus twice the padding, whenever
each third is at least 30 pixels), listed in row-major order; a cell
with a variance is classified empty exactly when that variance is below
500; and each non-empty slot runs a reduced pipeline that consults only
the first three of the five preprocessed variants, selecting the
earliest candidate of maximal letter count. -/
theorem claim7_amended :
    (∀ h w, (detect_binder_grid h w).length = 9) ∧
    (∀ h w r c, r < 3 → c < 3 →
        (detect_binder_grid h w).get? (3 * r + c) =
          some (cellBounds h w r c)) ∧
    (∀ h w r c, r < 3 → c < 3 → 30 ≤ w / 3 → 30 ≤ h / 3 →
        (cellBounds h w r c).2.2.1 - (cellBounds h w r c).1 = w / 3 - 30 ∧
        (cellBounds h w r c).2.2.2 - (cellBounds h w r c).2.1 =
          h / 3 - 30) ∧
    (∀ v : ℚ, is_empty_slot (some v) = decide (v < 500)) ∧
    ∀ env, extract_cards_from_binder_page env =
      if env.available && env.imageLoads then
        (List.range 9).map fun i => binderSlotChar env i
      else List.replicate 9 none := by
  refine ⟨?_, ?_, ?_, ?_, ?_⟩
  · intro h w
    rfl
  · intro h w r c hr hc
    interval_cases r <;> interval_cases c <;> rfl
  · intro h w r c hr hc hw30 hh30
    interval_cases r <;> interval_cases c <;>
      simp only [cellBounds] <;> omega
  · intro v
    rfl
  · intro env
    rw [extract_cards_from_binder_page]
    cases hav : env.available with
    | false => simp [hav]
    | true =>
      cases hld : env.imageLoads with
      | false => simp [hav, hld]
      | true =>
        simp only [hav, hld, Bool.true_eq_false, if_false, Bool.and_self,
          if_true]
        exact List.map_congr_left fun i _ => binderSlot_char_eq env i

/-- C7 witness: the row-major cell lookup instantiated on a 300 by 300
page at row 1 column 2. -/
theorem claim7_amended_witness :
    (detect_binder_grid 300 300).get? 5 = some (cellBounds 300 300 1 2) :=
  claim7_amended.2.1 300 300 1 2 (by decide) (by decide)

/-- C9 (amended): with the engine unavailable the binder batch completes
and returns nine results, but each is the bare marker none with no
explicit unavailable reason; the module-level availability flag is
checked once at the top of the batch, short-circuiting before any slot
is processed, so the output is independent of all per-slot data. -/
theorem claim9_amended :
    (∀ env, env.available = false →
        extract_cards_from_binder_page env = List.replicate 9 none) ∧
    (∀ env, (extract_cards_from_binder_page env).length = 9) ∧
    ∀ env env2, env.available = false → env2.available = false →
      extract_cards_from_binder_page env =
        extract_cards_from_binder_page env2 := by
  have h1 : ∀ env : BinderEnv, env.available = false →
      extract_cards_from_binder_page env = List.replicate 9 none := by
    intro env h
    rw [extract_cards_from_binder_page, if_pos h]
  refine ⟨h1, ?_, ?_⟩
  · intro env
    rw [extract_cards_from_binder_page]
    by_cases hav : env.available = false
    · rw [if_pos hav]
      rfl
    · rw [if_neg hav]
      by_cases hld : env.imageLoads = false
      · rw [if_pos hld]
        rfl
      · rw [if_neg hld]
        simp
  · intro env env2 h h2
    rw [h1 env h, h1 env2 h2]

/-- C9 witness: the short-circuit applied to the concrete unavailable
binder environment. -/
theorem claim9_amended_witness :
    extract_cards_from_binder_page cexEnvC9u = List.replicate 9 none :=
  claim9_amended.1 cexEnvC9u rfl

/-- C8: the title crop of the canonical 680 by 488 card is nonempty, a
degenerate card of height at most 8 (in particular a 0 by 0 card) has a
zero-area title crop, and whenever the title crop of a slot image is
empty the caller records no candidate for that slot and continues: the
binder batch still returns a result list with none at that slot, and
the single-card pipeline returns none instead of failing. -/
theorem claim8_title_region :
    titleRegionSize 680 488 ≠ 0 ∧
    titleRegionSize 0 0 = 0 ∧
    (∀ h w, h ≤ 8 → titleRegionSize h w = 0) ∧
    (∀ env i, i < 9 → env.available = true → env.imageLoads = true →
        env.titleEmpty ((env.slotCard i).getD (env.slotCell i)) = true →
        (extract_cards_from_binder_page env).get? i = some none) ∧
    ∀ env, env.available = true → env.imageLoads = true →
      (∀ im, env.titleEmpty im = true) →
        extract_card_name_from_image env = none := by
  refine ⟨by decide, by decide, ?_, ?_, ?_⟩
  · intro h w hh
    rw [titleRegionSize]
    have h1 : h * 115 / 1000 = 0 := by omega
    rw [h1]
    simp
  · intro env i hi hav hld htitle
    have hslot : binderSlotResult env i = none := by
      simp only [binderSlotResult]
      by_cases he : is_empty_slot (env.slotVariance i)
      · rw [if_pos he]
      · rw [if_neg he, if_pos htitle]
    rw [extract_cards_from_binder_page, if_neg (by simp [hav]),
      if_neg (by simp [hld]), List.get?_map, List.get?_range hi]
    rw [show (some i).map (fun i => binderSlotResult env i) =
      some (binderSlotResult env i) from rfl, hslot]
  · intro env hav hld htitles
    rw [extract_card_name_from_image, if_neg (by simp [hav]),
      if_neg (by simp [hld])]
    have hitems : pipelineItems env = [] := by
      simp [pipelineItems, htitles]
    rw [hitems]
    rfl

/-- C8 witness: the empty-title slot of the concrete binder environment
yields none while the batch still returns a list. -/
theorem claim8_title_region_witness :
    (extract_cards_from_binder_page cexEnvC8).get? 0 = some none :=
  claim8_title_region.2.2.2.1 cexEnvC8 0 (by decide) rfl rfl rfl

theorem findSome?_split {α β : Type} {f : α → Option β} :
    ∀ (l : List α) (b : β), l.findSome? f = some b →
      ∃ pre c post, l = pre ++ c :: post ∧ f c = some b ∧
        ∀ d ∈ pre, f d = none := by
  intro l
  induction l with
  | nil => intro b h; simp at h
  | cons x rest ih =>
    intro b h
    rw [List.findSome?_cons] at h
    cases hf : f x with
    | some y =>
      rw [hf] at h
      refine ⟨[], x, rest, by simp, ?_, by simp⟩
      rw [hf]
      exact h
    | none =>
      rw [hf] at h
      obtain ⟨pre, c, post, h1, h2, h3⟩ := ih b h
      refine ⟨x :: pre, c, post, by simp [h1], h2, ?_⟩
      intro d hd
      rcases List.mem_cons.mp hd with hd | hd
      · rw [hd]
        exact hf
      · exact h3 d hd

theorem find_card_eq_flat (solve : Quad4 → Quad4 → Option Mtx)
    (warp : Mtx → Img → Img) (img : Img) (sf : ℚ) :
    ∀ presets, find_card_in_image solve warp img sf presets =
      (presets.flatMap fun cs => cs.take 5).findSome?
        (stepContour solve warp img sf) := by
  intro presets
  induction presets with
  | nil => rfl
  | cons cs rest ih =>
    have hdef : find_card_in_image solve warp img sf (cs :: rest) =
        match (cs.take 5).findSome? (stepContour solve warp img sf) with
        | some card => some card
        | none => find_card_in_image solve warp img sf rest := rfl
    rw [hdef, List.flatMap_cons, List.findSome?_append]
    cases hfs : (cs.take 5).findSome? (stepContour solve warp img sf) with
    | some card => rfl
    | none =>
      rw [ih]
      rfl

/-- C5: the localizer accepts only a nondegenerate quadrilateral whose
minimum-area rectangle has a short over long side ratio strictly inside
the 0.6 to 0.8 band and whose perspective extraction succeeds; the
accepted polygon is the earliest in the traversal order (presets in
declared order, the five largest contours within each, by area); and
when nothing is accepted the localizer returns none and the caller
substitutes the whole image as the presumed card. -/
theorem claim5_localizer :
    (∀ solve warp img sf presets card,
        find_card_in_image solve warp img sf presets = some card →
        ∃ pre c post,
          (presets.flatMap fun cs => cs.take 5) = pre ++ c :: post ∧
          c.nv = 4 ∧ ¬ c.w = 0 ∧ ¬ c.h = 0 ∧
          (6 : ℚ) / 10 < aspectRatio c ∧ aspectRatio c < (8 : ℚ) / 10 ∧
          extract_card_perspective solve warp img (scaleQuad sf c.pts) =
            some card ∧
          ∀ d ∈ pre, stepContour solve warp img sf d = none) ∧
    ∀ env, find_card_in_image env.solve env.warp env.fullImg env.sf
        env.presets = none → imagesToTry env = [env.fullImg] := by
  constructor
  · intro solve warp img sf presets card h
    rw [find_card_eq_flat] at h
    obtain ⟨pre, c, post, h1, h2, h3⟩ := findSome?_split _ card h
    rw [stepContour] at h2
    by_cases hg : geomOk c
    · rw [if_pos hg] at h2
      simp only [geomOk, Bool.and_eq_true, decide_eq_true_eq] at hg
      exact ⟨pre, c, post, h1, hg.1.1.1.1, hg.1.1.1.2, hg.1.1.2, hg.1.2,
        hg.2, h2, h3⟩
    · rw [if_neg hg] at h2
      exact absurd h2 (by simp)
  · intro env h
    simp [imagesToTry, h]

/-- C6 (amended): the rectifier is total: when the transform computation
succeeds it returns the image warped by the transform from the ordered
corners onto the fixed 488 by 680 target corners, and when it fails it
returns none (not an unwarped resize); a candidate contour whose warp
fails is skipped by the localizer loop, and when localization wholly
fails the caller uses the whole image. -/
theorem claim6_amended :
    (∀ solve warp img q m, solve (order_points q) dstQuad = some m →
        extract_card_perspective solve warp img q = some (warp m img)) ∧
    (∀ solve warp img q, solve (order_points q) dstQuad = none →
        extract_card_perspective solve warp img q = none) ∧
    (∀ solve warp img sf c, geomOk c = true →
        extract_card_perspective solve warp img (scaleQuad sf c.pts) =
          none →
        stepContour solve warp img sf c = none) ∧
    ∀ env, find_card_in_image env.solve env.warp env.fullImg env.sf
        env.presets = none → imagesToTry env = [env.fullImg] := by
  refine ⟨?_, ?_, ?_, ?_⟩
  · intro solve warp img q m h
    rw [extract_card_perspective, h]
  · intro solve warp img q h
    rw [extract_card_perspective, h]
  · intro solve warp img sf c hg hw
    rw [stepContour, if_pos hg, hw]
  · intro env h
    simp [imagesToTry, h]

/-- C5 witness: the localizer acceptance property instantiated on one
preset holding one card-shaped contour that is accepted. -/
theorem claim5_localizer_witness :
    ∃ pre c post,
      (([[cexContour]] : List (List Contour)).flatMap fun cs =>
        cs.take 5) = pre ++ c :: post ∧
      c.nv = 4 ∧ ¬ c.w = 0 ∧ ¬ c.h = 0 ∧
      (6 : ℚ) / 10 < aspectRatio c ∧ aspectRatio c < (8 : ℚ) / 10 ∧
      extract_card_perspective solveOk warpAdd 5 (scaleQuad 1 c.pts) =
        some 6 ∧
      ∀ d ∈ pre, stepContour solveOk warpAdd 5 1 d = none :=
  claim5_localizer.1 solveOk warpAdd 5 1 [[cexContour]] 6 (by
    norm_num [find_card_in_image, stepContour, geomOk, aspectRatio, ratMin,
      ratMax, extract_card_perspective, cexContour, solveOk, warpAdd,
      List.findSome?_cons, List.take])

/-- C6 witness: on a failing transform the rectifier returns none. -/
theorem claim6_amended_witness :
    extract_card_perspective (fun _ _ => none) (fun _ i => i) 7 ptsSquare =
      none :=
  claim6_amended.2.1 (fun _ _ => none) (fun _ i => i) 7 ptsSquare rfl

theorem minVal?_cons (f : Pt → ℚ) (p : Pt) (rest : List Pt) :
    minVal? f (p :: rest) =
      some (match minVal? f rest with
        | none => f p
        | some m => ratMin (f p) m) := rfl

theorem minVal?_none_iff (f : Pt → ℚ) :
    ∀ l : List Pt, minVal? f l = none ↔ l = [] := by
  intro l
  cases l with
  | nil => simp [minVal?]
  | cons p rest => simp [minVal?_cons]

theorem ratMin_le_left (a b : ℚ) : ratMin a b ≤ a := by
  rw [ratMin]
  split_ifs with h
  · exact le_refl a
  · linarith

theorem ratMin_le_right (a b : ℚ) : ratMin a b ≤ b := by
  rw [ratMin]
  split_ifs with h
  · exact h
  · exact le_refl b

theorem minVal?_le (f : Pt → ℚ) :
    ∀ (l : List Pt) (m : ℚ), minVal? f l = some m →
      ∀ j, j < l.length → m ≤ f (l.getD j pt0) := by
  intro l
  induction l with
  | nil => intro m h; simp [minVal?] at h
  | cons p rest ih =>
    intro m h j hj
    rw [minVal?_cons] at h
    injection h with h2
    cases hr : minVal? f rest with
    | none =>
      rw [hr] at h2
      have h2v : f p = m := h2
      have hrest : rest = [] := (minVal?_none_iff f rest).mp hr
      subst hrest
      simp only [List.length_singleton] at hj
      interval_cases j
      rw [List.getD_cons_zero, ← h2v]
    | some m2 =>
      rw [hr] at h2
      have h2v : ratMin (f p) m2 = m := h2
      cases j with
      | zero =>
        rw [List.getD_cons_zero, ← h2v]
        exact ratMin_le_left _ _
      | succ j2 =>
        rw [List.getD_cons_succ, ← h2v]
        have h3 := ih m2 hr j2 (by simpa using hj)
        have h4 := ratMin_le_right (f p) m2
        linarith

theorem firstIdxMin_cons (f : Pt → ℚ) (p : Pt) (rest : List Pt) :
    firstIdxMinBy f (p :: rest) =
      match minVal? f rest with
      | none => 0
      | some m => if f p ≤ m then 0 else firstIdxMinBy f rest + 1 := rfl

theorem firstIdxMin_lt (f : Pt → ℚ) :
    ∀ l : List Pt, l ≠ [] → firstIdxMinBy f l < l.length := by
  intro l
  induction l with
  | nil => intro h; exact absurd rfl h
  | cons p rest ih =>
    intro _
    cases hr : minVal? f rest with
    | none =>
      have hidx : firstIdxMinBy f (p :: rest) = 0 := by
        rw [firstIdxMin_cons, hr]
      rw [hidx]
      simp
    | some m =>
      have hidx : firstIdxMinBy f (p :: rest) =
          if f p ≤ m then 0 else firstIdxMinBy f rest + 1 := by
        rw [firstIdxMin_cons, hr]
      rw [hidx]
      by_cases hle : f p ≤ m
      · rw [if_pos hle]
        simp
      · rw [if_neg hle]
        have hrest : rest ≠ [] := by
          intro h0
          subst h0
          simp [minVal?] at hr
        have := ih hrest
        simp only [List.length_cons]
        omega

theorem firstIdxMin_val (f : Pt → ℚ) :
    ∀ (l : List Pt) (m : ℚ), minVal? f l = some m →
      f (l.getD (firstIdxMinBy f l) pt0) = m := by
  intro l
  induction l with
  | nil => intro m h; simp [minVal?] at h
  | cons p rest ih =>
    intro m h
    rw [minVal?_cons] at h
    injection h with h2
    cases hr : minVal? f rest with
    | none =>
      rw [hr] at h2
      have h2v : f p = m := h2
      have hidx : firstIdxMinBy f (p :: rest) = 0 := by
        rw [firstIdxMin_cons, hr]
      rw [hidx, List.getD_cons_zero]
      exact h2v
    | some m2 =>
      rw [hr] at h2
      have h2v : ratMin (f p) m2 = m := h2
      have hidx : firstIdxMinBy f (p :: rest) =
          if f p ≤ m2 then 0 else firstIdxMinBy f rest + 1 := by
        rw [firstIdxMin_cons, hr]
      rw [hidx]
      by_cases hle : f p ≤ m2
      · rw [if_pos hle, List.getD_cons_zero, ← h2v, ratMin, if_pos hle]
      · rw [if_neg hle, List.getD_cons_succ, ih m2 hr, ← h2v, ratMin,
          if_neg hle]

theorem firstIdxMin_first (f : Pt → ℚ) :
    ∀ l : List Pt, ∀ j, j < firstIdxMinBy f l →
      f (l.getD (firstIdxMinBy f l) pt0) < f (l.getD j pt0) := by
  intro l
  induction l with
  | nil => intro j hj; simp [firstIdxMinBy] at hj
  | cons p rest ih =>
    intro j hj
    cases hr : minVal? f rest with
    | none =>
      have hidx : firstIdxMinBy f (p :: rest) = 0 := by
        rw [firstIdxMin_cons, hr]
      rw [hidx] at hj
      omega
    | some m =>
      have hidx : firstIdxMinBy f (p :: rest) =
          if f p ≤ m then 0 else firstIdxMinBy f rest + 1 := by
        rw [firstIdxMin_cons, hr]
      rw [hidx] at hj ⊢
      by_cases hle : f p ≤ m
      · rw [if_pos hle] at hj
        omega
      · rw [if_neg hle] at hj ⊢
        rw [List.getD_cons_succ, firstIdxMin_val f rest m hr]
        cases j with
        | zero =>
          rw [List.getD_cons_zero]
          linarith
        | succ j2 =>
          rw [List.getD_cons_succ]
          have h3 := ih j2 (by omega)
          rw [firstIdxMin_val f rest m hr] at h3
          exact h3

theorem isFirstMinAt_firstIdx (f : Pt → ℚ) (l : List Pt) (hne : l ≠ []) :
    isFirstMinAt f l (firstIdxMinBy f l) := by
  refine ⟨firstIdxMin_lt f l hne, ?_, fun j hj => firstIdxMin_first f l j hj⟩
  intro j hj
  cases hm : minVal? f l with
  | none => exact absurd ((minVal?_none_iff f l).mp hm) hne
  | some m =>
    rw [firstIdxMin_val f l m hm]
    exact minVal?_le f l m hm j hj

theorem isFirstMaxAt_firstIdx (f : Pt → ℚ) (l : List Pt) (hne : l ≠ []) :
    isFirstMaxAt f l (firstIdxMaxBy f l) := by
  obtain ⟨h1, h2, h3⟩ := isFirstMinAt_firstIdx (fun p => -(f p)) l hne
  rw [firstIdxMaxBy]
  refine ⟨h1, ?_, ?_⟩
  · intro j hj
    have := h2 j hj
    simp only at this
    linarith
  · intro j hj
    have := h3 j hj
    simp only at this
    linarith

/-- C2 (amended): order_points returns the quadruple holding, in this
order, the point at the first index of minimal x plus y, the point at
the first index of minimal y minus x (equivalently maximal x minus y),
the point at the first index of maximal x plus y, and the point at the
first index of maximal y minus x (equivalently minimal x minus y); it is
total, so with fewer than four distinct points it still returns a
quadruple instead of failing. -/
theorem claim2_amended (q : Quad4) :
    ∃ i1 i2 i3 i4 : Nat,
      order_points q =
        ((ptsList q).getD i1 pt0, (ptsList q).getD i2 pt0,
          (ptsList q).getD i3 pt0, (ptsList q).getD i4 pt0) ∧
      isFirstMinAt sumXY (ptsList q) i1 ∧
      isFirstMinAt diffYX (ptsList q) i2 ∧
      isFirstMaxAt sumXY (ptsList q) i3 ∧
      isFirstMaxAt diffYX (ptsList q) i4 := by
  have hne : ptsList q ≠ [] := by simp [ptsList]
  exact ⟨firstIdxMinBy sumXY (ptsList q), firstIdxMinBy diffYX (ptsList q),
    firstIdxMaxBy sumXY (ptsList q), firstIdxMaxBy diffYX (ptsList q),
    rfl, isFirstMinAt_firstIdx sumXY (ptsList q) hne,
    isFirstMinAt_firstIdx diffYX (ptsList q) hne,
    isFirstMaxAt_firstIdx sumXY (ptsList q) hne,
    isFirstMaxAt_firstIdx diffYX (ptsList q) hne⟩

/-- C1 witness: the amended selection rule instantiated at the concrete
pipeline run of the counterexample environment. -/
theorem claim1_amended_witness :
    extract_card_name_from_image cexEnvC1 =
      if cexEnvC1.available && cexEnvC1.imageLoads then
        firstMaxD alphaCount (candList (upToGood (pipelineItems cexEnvC1)))
      else none :=
  claim1_amended.2 cexEnvC1

/-- C2 witness: the ordering characterization instantiated at the
axis-aligned square. -/
theorem claim2_amended_witness :
    ∃ i1 i2 i3 i4 : Nat,
      order_points ptsSquare =
        ((ptsList ptsSquare).getD i1 pt0, (ptsList ptsSquare).getD i2 pt0,
          (ptsList ptsSquare).getD i3 pt0,
          (ptsList ptsSquare).getD i4 pt0) ∧
      isFirstMinAt sumXY (ptsList ptsSquare) i1 ∧
      isFirstMinAt diffYX (ptsList ptsSquare) i2 ∧
      isFirstMaxAt sumXY (ptsList ptsSquare) i3 ∧
      isFirstMaxAt diffYX (ptsList ptsSquare) i4 :=
  claim2_amended ptsSquare

end MtgOcr
